import Mathlib

/-!
# Verification of the Vigenère cipher implementation (src/main.c)

Characters are modelled as integer byte codes (`Int`), matching the C `char`
values actually reachable from `getchar` (0..255); all arithmetic that C
performs in `int` is carried out on `Int`, with C's `%` on `int` rendered as
`Int.tmod` (truncation towards zero, the C99 semantics).

Strings are modelled as `List Int` holding the characters strictly before the
NUL terminator; reading the terminator cell `s[length]` yields the byte 0.
Nullable `char *` arguments and results are modelled as `Option (List Int)`,
`none` standing for a NULL pointer.

`correctKey` walks its buffer with an index that can momentarily reach -1
(after a character at position 0 is dropped).  To model the access one byte
before the allocation we carry an extra value `pre`: the content of that byte.
The loop can read it and even write it; it is never part of the string.
-/

namespace VigenereC

/-- The `AsciiRange` enum constants from src/main.c. -/
def uppercase_upper : Int := 90

/-- `uppercase_lower = 65` from the `AsciiRange` enum. -/
def uppercase_lower : Int := 65

/-- `lowercase_upper = 122` from the `AsciiRange` enum. -/
def lowercase_upper : Int := 122

/-- `lowercase_lower = 97` from the `AsciiRange` enum. -/
def lowercase_lower : Int := 97

/-- `range_distance = 32` from the `AsciiRange` enum. -/
def range_distance : Int := 32

/-- `bool isUppercase(char in)`: `in >= uppercase_lower && in <= uppercase_upper`. -/
def isUppercase (inC : Int) : Bool :=
  decide (uppercase_lower ≤ inC ∧ inC ≤ uppercase_upper)

/-- `bool isLowercase(char in)`: `in >= lowercase_lower && in <= lowercase_upper`. -/
def isLowercase (inC : Int) : Bool :=
  decide (lowercase_lower ≤ inC ∧ inC ≤ lowercase_upper)

/-- `bool inBounds(char in)`: `isLowercase(in) || isUppercase(in)`. -/
def inBounds (inC : Int) : Bool :=
  isLowercase inC || isUppercase inC

/-- `int getFloor(char in)`: `isLowercase(in) ? lowercase_lower : uppercase_lower`. -/
def getFloor (inC : Int) : Int :=
  if isLowercase inC then lowercase_lower else uppercase_lower

/-- `char calculateRotShift(char in, char offset)`:
`(((in + offset) - (inFloor + offsetFloor)) % 26) + inFloor`, where `%` is the
C `int` remainder (truncation towards zero, `Int.tmod`). -/
def calculateRotShift (inC offset : Int) : Int :=
  ((inC + offset) - (getFloor inC + getFloor offset)).tmod 26 + getFloor inC

/-- Read of `key[i]` where `i` may be -1 (one byte before the allocation,
whose content is `pre`) or `key.length` (the NUL terminator, byte 0). -/
def bufGet (pre : Int) (key : List Int) (i : Int) : Int :=
  if i < 0 then pre else key.getD i.toNat 0

/-- Write `key[i] = v` where `i` may be -1: that write lands on the byte
before the allocation, every in-range write lands in the string. Returns the
new (pre-byte, buffer) pair. -/
def bufSet (pre : Int) (key : List Int) (i : Int) (v : Int) : Int × List Int :=
  if i < 0 then (v, key) else (pre, key.set i.toNat v)

theorem bufSet_snd_length (pre : Int) (key : List Int) (i v : Int) :
    ((bufSet pre key i v).2).length = key.length := by
  unfold bufSet; split <;> simp

/-- The scan loop of `correctKey` (src/main.c lines 146-158), one call per
entry into the `for` body with the current buffer and index.  A non-letter at
`i` is removed (`strcpy(&key[i], &key[i+1])` shifts left) and `i` is
decremented; the uppercase fold check then runs on the possibly decremented
index — which is `i - 1`, possibly -1, when a drop just happened — and the
`for` increment brings the index back to `i`.  The C `length` variable always
equals the current `strlen`, i.e. the list length. -/
def correctKeyLoop (pre : Int) (key : List Int) (i : Nat) : Int × List Int :=
  if h : i < key.length then
    if inBounds (key.get ⟨i, h⟩) then
      if isUppercase (key.get ⟨i, h⟩) then
        correctKeyLoop pre (key.set i (key.get ⟨i, h⟩ + range_distance)) (i + 1)
      else
        correctKeyLoop pre key (i + 1)
    else
      if isUppercase (bufGet pre (key.eraseIdx i) ((i : Int) - 1)) then
        correctKeyLoop
          (bufSet pre (key.eraseIdx i) ((i : Int) - 1)
            (bufGet pre (key.eraseIdx i) ((i : Int) - 1) + range_distance)).1
          (bufSet pre (key.eraseIdx i) ((i : Int) - 1)
            (bufGet pre (key.eraseIdx i) ((i : Int) - 1) + range_distance)).2
          i
      else
        correctKeyLoop pre (key.eraseIdx i) i
  else (pre, key)
termination_by key.length - i
decreasing_by
  all_goals (try simp_all [bufSet_snd_length, List.length_eraseIdx, List.length_set]) <;> omega

/-- `char *correctKey(char *key)` (src/main.c lines 139-168): NULL key yields
NULL; otherwise the scan loop runs from index 0 and the trailing
`realloc`/terminator rewrite leaves the contents unchanged.  `pre` is the byte
stored immediately before the buffer. -/
def correctKey (pre : Int) (key : Option (List Int)) : Option (List Int) :=
  match key with
  | none => none
  | some k => some (correctKeyLoop pre k 0).2

/-- The index at which each iteration of the `correctKey` scan loop performs
its uppercase fold check `isUppercase(key[i])`: the loop index itself when the
current character was kept, and the decremented index `i - 1` when it was just
dropped.  Same control flow and state updates as `correctKeyLoop`, recording
the checked index of every iteration. -/
def correctKeyCheckIdx (pre : Int) (key : List Int) (i : Nat) : List Int :=
  if h : i < key.length then
    if inBounds (key.get ⟨i, h⟩) then
      if isUppercase (key.get ⟨i, h⟩) then
        (i : Int) :: correctKeyCheckIdx pre (key.set i (key.get ⟨i, h⟩ + range_distance)) (i + 1)
      else
        (i : Int) :: correctKeyCheckIdx pre key (i + 1)
    else
      if isUppercase (bufGet pre (key.eraseIdx i) ((i : Int) - 1)) then
        ((i : Int) - 1) :: correctKeyCheckIdx
          (bufSet pre (key.eraseIdx i) ((i : Int) - 1)
            (bufGet pre (key.eraseIdx i) ((i : Int) - 1) + range_distance)).1
          (bufSet pre (key.eraseIdx i) ((i : Int) - 1)
            (bufGet pre (key.eraseIdx i) ((i : Int) - 1) + range_distance)).2
          i
      else
        ((i : Int) - 1) :: correctKeyCheckIdx pre (key.eraseIdx i) i
  else []
termination_by key.length - i
decreasing_by
  all_goals (try simp_all [bufSet_snd_length, List.length_eraseIdx, List.length_set]) <;> omega

/-- The ciphering loop of `vigenere` (src/main.c lines 187-197), abstracted
over the per-letter rotation `rot` so the spec's inverse pass can reuse the
identical position-cycling control flow.  One call per entry into the `for`
body: `keyi` wraps to 0 when it equals the key length, a letter at position
`i` is overwritten in place with `rot plainText[i] key[keyi]`, and `keyi`
advances by one every position.  `key.getD keyi 0` is the read `key[keyi]`:
for a non-empty key the cursor provably stays below the key length, so the
`getD` default is never taken and the model is exact.  For the empty key only
`key[0]` (the NUL terminator, byte 0) is allocated, and the wrap fires only
while `keyi` is 0, so from the second position on the C code reads `key[1]`,
`key[2]`, ... past the allocation — undefined behavior that this total model
cannot render; `cipherKeyReadIdx` below records the key indices actually read
so that overrun can be exhibited. -/
def cipherLoop (rot : Int → Int → Int) (key plainText : List Int) (i keyi : Nat) : List Int :=
  if h : i < plainText.length then
    cipherLoop rot key
      (if inBounds (plainText.get ⟨i, h⟩) then
        plainText.set i
          (rot (plainText.get ⟨i, h⟩) (key.getD (if keyi = key.length then 0 else keyi) 0))
      else plainText)
      (i + 1) ((if keyi = key.length then 0 else keyi) + 1)
  else plainText
termination_by plainText.length - i
decreasing_by
  all_goals split <;> simp [List.length_set] <;> omega

/-- The key indices read by the ciphering loop: the same guard, wrap and state
updates as `cipherLoop` (with `calculateRotShift` as the rotation), recording,
for every letter position, the index `keyi` at which `key[keyi]` is read.  An
index above the key length points past the C allocation of the key (its valid
cells are 0..length, the last one the NUL terminator). -/
def cipherKeyReadIdx (key plainText : List Int) (i keyi : Nat) : List Nat :=
  if h : i < plainText.length then
    (if inBounds (plainText.get ⟨i, h⟩)
      then [if keyi = key.length then 0 else keyi] else []) ++
    cipherKeyReadIdx key
      (if inBounds (plainText.get ⟨i, h⟩) then
        plainText.set i
          (calculateRotShift (plainText.get ⟨i, h⟩)
            (key.getD (if keyi = key.length then 0 else keyi) 0))
      else plainText)
      (i + 1) ((if keyi = key.length then 0 else keyi) + 1)
  else []
termination_by plainText.length - i
decreasing_by
  all_goals split <;> simp [List.length_set] <;> omega

/-- `char *vigenere(char *plainText, char *key)` (src/main.c lines 178-199):
NULL plaintext or NULL key yields NULL; otherwise the loop runs over the whole
plaintext from index 0 with key cursor 0. -/
def vigenere (plainText key : Option (List Int)) : Option (List Int) :=
  match plainText, key with
  | some p, some k => some (cipherLoop calculateRotShift k p 0 0)
  | _, _ => none

/-- Modelled from the spec: decryption is not implemented in the source (§1
non-goals); spec §8 (Reversibility) describes deciphering as the same
position-cycling pass with the rotation offset negated, and §4.4 requires the
mod-26 step to land in [0,26), which `Int.emod` guarantees. -/
def calculateRotShiftInv (inC offset : Int) : Int :=
  ((inC - getFloor inC) - (offset - getFloor offset)) % 26 + getFloor inC

/-- Modelled from the spec: the inverse transform of §8, the same
position-cycling pass as `vigenere` with the negated rotation. -/
def devigenere (cipherText key : Option (List Int)) : Option (List Int) :=
  match cipherText, key with
  | some p, some k => some (cipherLoop calculateRotShiftInv k p 0 0)
  | _, _ => none

/-- A canonical key per spec §3: a non-empty sequence of lowercase Latin
letters. -/
def CanonicalKey (k : List Int) : Prop :=
  k ≠ [] ∧ ∀ c ∈ k, isLowercase c = true

instance : DecidablePred CanonicalKey := fun k =>
  inferInstanceAs (Decidable (k ≠ [] ∧ ∀ c ∈ k, isLowercase c = true))

/-- Pure recursive form of the ciphering loop: processes the remaining
characters with the current key cursor.  Used to reason about (and compute)
`cipherLoop`, to which it is related by `cipherLoop_eq_seq`. -/
def cipherSeq (rot : Int → Int → Int) (key : List Int) (keyi : Nat) : List Int → List Int
  | [] => []
  | c :: rest =>
    (if inBounds c then rot c (key.getD (if keyi = key.length then 0 else keyi) 0) else c) ::
      cipherSeq rot key ((if keyi = key.length then 0 else keyi) + 1) rest

theorem cipherSeq_length (rot : Int → Int → Int) (key : List Int) :
    ∀ (l : List Int) (keyi : Nat), (cipherSeq rot key keyi l).length = l.length := by
  intro l
  induction l with
  | nil => intro keyi; rfl
  | cons c rest ih => intro keyi; simp [cipherSeq, ih]

/-- The in-place ciphering loop started at position `i` leaves the first `i`
characters alone and rewrites the rest as `cipherSeq` does. -/
theorem cipherLoop_eq_seq (rot : Int → Int → Int) (key : List Int) :
    ∀ (p : List Int) (i keyi : Nat),
      cipherLoop rot key p i keyi = p.take i ++ cipherSeq rot key keyi (p.drop i) := by
  intro p i keyi
  have htake : ∀ (q : List Int) (j : Nat) (hj : j < q.length) (v : Int),
      (q.take j ++ v :: q.drop (j + 1)).take (j + 1) = q.take j ++ [v] := by
    intro q j hj v
    have hlen : (q.take j).length = j := by simp; omega
    calc (q.take j ++ v :: q.drop (j + 1)).take (j + 1)
        = (q.take j ++ v :: q.drop (j + 1)).take ((q.take j).length + 1) := by rw [hlen]
      _ = q.take j ++ (v :: q.drop (j + 1)).take 1 := List.take_append 1
      _ = q.take j ++ [v] := by simp
  have hdrop : ∀ (q : List Int) (j : Nat) (hj : j < q.length) (v : Int),
      (q.take j ++ v :: q.drop (j + 1)).drop (j + 1) = q.drop (j + 1) := by
    intro q j hj v
    have hlen : (q.take j).length = j := by simp; omega
    calc (q.take j ++ v :: q.drop (j + 1)).drop (j + 1)
        = (q.take j ++ v :: q.drop (j + 1)).drop ((q.take j).length + 1) := by rw [hlen]
      _ = (v :: q.drop (j + 1)).drop 1 := List.drop_append 1
      _ = q.drop (j + 1) := by simp
  induction p, i, keyi using cipherLoop.induct rot key with
  | case1 p i keyi h ih =>
      rw [cipherLoop]
      simp only [h, dite_true]
      simp only [dite_eq_ite] at ih
      rw [ih]
      rw [List.drop_eq_getElem_cons h, cipherSeq]
      simp only [List.get_eq_getElem] at ih ⊢
      by_cases hb : inBounds p[i] = true
      · rw [if_pos hb]
        rw [List.set_eq_take_cons_drop _ h, htake p i h, hdrop p i h]
        simp [hb]
      · rw [if_neg hb]
        rw [if_neg hb]
        rw [List.take_succ, List.getElem?_eq_getElem h]
        simp only [Option.toList_some, List.append_assoc, List.singleton_append]
  | case2 p i keyi h =>
      rw [cipherLoop]
      simp only [h, dite_false]
      rw [List.drop_eq_nil_of_le (by omega), List.take_of_length_le (by omega)]
      simp [cipherSeq]

theorem vigenere_some_eq (p k : List Int) :
    vigenere (some p) (some k) = some (cipherSeq calculateRotShift k 0 p) := by
  simp [vigenere, cipherLoop_eq_seq]

theorem devigenere_some_eq (p k : List Int) :
    devigenere (some p) (some k) = some (cipherSeq calculateRotShiftInv k 0 p) := by
  simp [devigenere, cipherLoop_eq_seq]

theorem isUppercase_iff (c : Int) : isUppercase c = true ↔ 65 ≤ c ∧ c ≤ 90 := by
  simp [isUppercase, uppercase_lower, uppercase_upper]

theorem isLowercase_iff (c : Int) : isLowercase c = true ↔ 97 ≤ c ∧ c ≤ 122 := by
  simp [isLowercase, lowercase_lower, lowercase_upper]

theorem inBounds_iff (c : Int) :
    inBounds c = true ↔ (97 ≤ c ∧ c ≤ 122) ∨ (65 ≤ c ∧ c ≤ 90) := by
  simp [inBounds, isLowercase_iff, isUppercase_iff]

theorem getFloor_lower (c : Int) (hc : isLowercase c = true) : getFloor c = 97 := by
  simp [getFloor, hc, lowercase_lower]

theorem getFloor_not_lower (c : Int) (hc : isLowercase c = false) : getFloor c = 65 := by
  simp [getFloor, hc, uppercase_lower]

theorem getFloor_bounds (c : Int) (hc : inBounds c = true) :
    getFloor c ≤ c ∧ c ≤ getFloor c + 25 := by
  rw [inBounds_iff] at hc
  by_cases hl : isLowercase c = true
  · rw [getFloor_lower c hl]
    rw [isLowercase_iff] at hl
    omega
  · rw [getFloor_not_lower c (by simp at hl; exact hl)]
    have hl2 : ¬(97 ≤ c ∧ c ≤ 122) := by rw [← isLowercase_iff]; simpa using hl
    omega

/-- On two letters the truncated C remainder agrees with the mathematical
(non-negative) remainder, so `calculateRotShift` computes the spec's formula. -/
theorem calculateRotShift_eq (c k : Int) (hc : inBounds c = true) (hk : inBounds k = true) :
    calculateRotShift c k =
      getFloor c + ((c - getFloor c) + (k - getFloor k)) % 26 := by
  have h1 := getFloor_bounds c hc
  have h2 := getFloor_bounds k hk
  unfold calculateRotShift
  rw [Int.tmod_eq_emod (by omega) (by norm_num)]
  have harg : (c + k) - (getFloor c + getFloor k) = (c - getFloor c) + (k - getFloor k) := by
    ring
  rw [harg]
  ring

theorem calculateRotShift_mem (c k : Int) (hc : inBounds c = true) (hk : inBounds k = true) :
    getFloor c ≤ calculateRotShift c k ∧ calculateRotShift c k < getFloor c + 26 := by
  rw [calculateRotShift_eq c k hc hk]
  omega

theorem calculateRotShift_lower (c k : Int) (hc : isLowercase c = true)
    (hk : inBounds k = true) : isLowercase (calculateRotShift c k) = true := by
  have hc' : inBounds c = true := by simp [inBounds, hc]
  have hmem := calculateRotShift_mem c k hc' hk
  rw [getFloor_lower c hc] at hmem
  rw [isLowercase_iff]
  omega

theorem calculateRotShift_upper (c k : Int) (hc : isUppercase c = true)
    (hk : inBounds k = true) : isUppercase (calculateRotShift c k) = true := by
  have hc' : inBounds c = true := by simp [inBounds, hc]
  have hlow : isLowercase c = false := by
    rw [isUppercase_iff] at hc
    rw [Bool.eq_false_iff, Ne, isLowercase_iff]
    omega
  have hmem := calculateRotShift_mem c k hc' hk
  rw [getFloor_not_lower c hlow] at hmem
  rw [isUppercase_iff]
  omega

theorem inBounds_calculateRotShift (c k : Int) (hc : inBounds c = true)
    (hk : inBounds k = true) : inBounds (calculateRotShift c k) = true := by
  have hcases : isLowercase c = true ∨ isUppercase c = true := by
    simpa [inBounds] using hc
  rcases hcases with hl | hu
  · simp [inBounds, calculateRotShift_lower c k hl hk]
  · simp [inBounds, calculateRotShift_upper c k hu hk]

/-- The spec's inverse rotation undoes `calculateRotShift` on letters. -/
theorem calculateRotShiftInv_cancel (c k : Int) (hc : inBounds c = true)
    (hk : inBounds k = true) :
    calculateRotShiftInv (calculateRotShift c k) k = c := by
  have hb := getFloor_bounds c hc
  have hmem := calculateRotShift_mem c k hc hk
  have heq := calculateRotShift_eq c k hc hk
  have hfr : getFloor (calculateRotShift c k) = getFloor c := by
    by_cases hl : isLowercase c = true
    · exact (getFloor_lower _ (calculateRotShift_lower c k hl hk)).trans
        (getFloor_lower c hl).symm
    · have hl' : isLowercase c = false := by simp at hl; exact hl
      have hfc := getFloor_not_lower c hl'
      have hout : isLowercase (calculateRotShift c k) = false := by
        rw [hfc] at hmem
        rw [Bool.eq_false_iff, Ne, isLowercase_iff]
        omega
      rw [getFloor_not_lower _ hout, hfc]
  unfold calculateRotShiftInv
  rw [hfr, heq]
  omega

theorem cipherSeq_getElem? (rot : Int → Int → Int) (key : List Int) (hk : 0 < key.length) :
    ∀ (l : List Int) (keyi : Nat), keyi ≤ key.length → ∀ (j : Nat),
      (cipherSeq rot key keyi l)[j]? =
        (l[j]?).map (fun c =>
          if inBounds c then rot c (key.getD ((keyi + j) % key.length) 0) else c) := by
  intro l
  induction l with
  | nil => intro keyi hki j; simp [cipherSeq]
  | cons c rest ih =>
      intro keyi hki j
      have hwrap : (if keyi = key.length then 0 else keyi) = keyi % key.length := by
        split
        · rename_i hkeq
          rw [hkeq, Nat.mod_self]
        · rename_i hkne
          exact (Nat.mod_eq_of_lt (by omega)).symm
      have hlt : keyi % key.length < key.length := Nat.mod_lt _ hk
      cases j with
      | zero =>
          simp only [cipherSeq, List.getElem?_cons_zero, hwrap, Nat.add_zero]
          rfl
      | succ j =>
          simp only [cipherSeq, List.getElem?_cons_succ]
          rw [ih ((if keyi = key.length then 0 else keyi) + 1) (by rw [hwrap]; omega) j]
          have hidx : ((if keyi = key.length then 0 else keyi) + 1 + j) % key.length =
              (keyi + (j + 1)) % key.length := by
            rw [hwrap]
            have : keyi % key.length + 1 + j = keyi % key.length + (1 + j) := by omega
            rw [this, Nat.mod_add_mod]
            congr 1
            omega
          rw [hidx]

theorem take_succ_set (q : List Int) (j : Nat) (hj : j < q.length) (v : Int) :
    (q.set j v).take (j + 1) = q.take j ++ [v] := by
  rw [List.set_eq_take_cons_drop _ hj]
  have hlen : (q.take j).length = j := by simp; omega
  calc (q.take j ++ v :: q.drop (j + 1)).take (j + 1)
      = (q.take j ++ v :: q.drop (j + 1)).take ((q.take j).length + 1) := by rw [hlen]
    _ = q.take j ++ (v :: q.drop (j + 1)).take 1 := List.take_append 1
    _ = q.take j ++ [v] := by simp

theorem take_succ_getElem (q : List Int) (j : Nat) (hj : j < q.length) :
    q.take (j + 1) = q.take j ++ [q[j]] := by
  rw [List.take_succ, List.getElem?_eq_getElem hj]
  rfl

theorem take_eraseIdx (q : List Int) (j : Nat) :
    (q.eraseIdx j).take j = q.take j := by
  rcases Nat.lt_or_ge j q.length with hj | hj
  · rw [List.eraseIdx_eq_take_drop_succ]
    have hlen : (q.take j).length = j := by simp; omega
    calc (q.take j ++ q.drop (j + 1)).take j
        = (q.take j ++ q.drop (j + 1)).take ((q.take j).length) := by rw [hlen]
      _ = q.take j := List.take_left _ _
  · rw [List.eraseIdx_of_length_le hj]

theorem drop_eraseIdx (q : List Int) (j : Nat) (hj : j < q.length) :
    (q.eraseIdx j).drop j = q.drop (j + 1) := by
  rw [List.eraseIdx_eq_take_drop_succ]
  have hlen : (q.take j).length = j := by simp; omega
  calc (q.take j ++ q.drop (j + 1)).drop j
      = (q.take j ++ q.drop (j + 1)).drop ((q.take j).length) := by rw [hlen]
    _ = q.drop (j + 1) := List.drop_left _ _

/-- Invariant proof for the `correctKey` scan loop: provided every character
already scanned (the first `i` of the current buffer) is no longer uppercase,
the loop returns the scanned prefix followed by the rest filtered to letters
with uppercase letters folded down by `range_distance`.  The result does not
depend on the byte `pre` that sits before the buffer. -/
theorem correctKeyLoop_spec :
    ∀ (pre : Int) (key : List Int) (i : Nat),
      (∀ c ∈ key.take i, isUppercase c = false) →
      (correctKeyLoop pre key i).2 =
        key.take i ++ ((key.drop i).filter (fun c => inBounds c)).map
          (fun c => if isUppercase c then c + range_distance else c) := by
  intro pre key i
  induction pre, key, i using correctKeyLoop.induct with
  | case1 pre key i h hb hu ih =>
      intro hinv
      rw [correctKeyLoop]
      simp only [h, dite_true, List.get_eq_getElem] at hb hu ih ⊢
      rw [if_pos hb, if_pos hu]
      have hup32 : isUppercase (key[i] + range_distance) = false := by
        rw [isUppercase_iff] at hu
        rw [Bool.eq_false_iff, Ne, isUppercase_iff]
        unfold range_distance
        omega
      have hinv2 : ∀ c ∈ (key.set i (key[i] + range_distance)).take (i + 1),
          isUppercase c = false := by
        intro c hc
        rw [take_succ_set key i h] at hc
        rcases List.mem_append.mp hc with hc1 | hc2
        · exact hinv c hc1
        · rw [List.mem_singleton.mp hc2]
          exact hup32
      rw [ih hinv2, take_succ_set key i h, List.drop_set_of_lt _ _ (by omega),
        List.drop_eq_getElem_cons h]
      simp only [List.filter_cons, hb, if_true, List.map_cons, hu, List.append_assoc,
        List.singleton_append]
  | case2 pre key i h hb hu ih =>
      intro hinv
      rw [correctKeyLoop]
      simp only [h, dite_true, List.get_eq_getElem] at hb hu ih ⊢
      rw [if_pos hb, if_neg (by simp [hu])]
      have hinv2 : ∀ c ∈ key.take (i + 1), isUppercase c = false := by
        intro c hc
        rw [take_succ_getElem key i h] at hc
        rcases List.mem_append.mp hc with hc1 | hc2
        · exact hinv c hc1
        · rw [List.mem_singleton.mp hc2]
          simpa using hu
      rw [ih hinv2, take_succ_getElem key i h, List.drop_eq_getElem_cons h]
      simp only [List.filter_cons, hb, if_true, List.map_cons, hu, if_false,
        List.append_assoc, List.singleton_append]
      simp [hu]
  | case3 pre key i h hb hup ih =>
      intro hinv
      rw [correctKeyLoop]
      simp only [h, dite_true, List.get_eq_getElem] at hb hup ih ⊢
      rw [if_neg (by simp [hb]), if_pos hup]
      rcases Nat.eq_zero_or_pos i with hi0 | hipos
      · subst hi0
        simp only [Nat.cast_zero] at hup ih ⊢
        have hbg : bufGet pre (key.eraseIdx 0) ((0 : Int) - 1) = pre := by
          simp [bufGet]
        have hbs : bufSet pre (key.eraseIdx 0) ((0 : Int) - 1)
            (bufGet pre (key.eraseIdx 0) ((0 : Int) - 1) + range_distance) =
            (pre + range_distance, key.eraseIdx 0) := by
          simp [bufSet, bufGet]
        rw [hbs] at ih ⊢
        have hinv2 : ∀ c ∈ (key.eraseIdx 0).take 0, isUppercase c = false := by
          simp
        rw [ih hinv2]
        simp only [List.take_zero, List.drop_zero, List.nil_append]
        cases key with
        | nil => simp at h
        | cons c rest =>
            have hbf : inBounds c = false := by simpa using hb
            simp only [List.eraseIdx_cons_zero, List.filter_cons, hbf,
              Bool.false_eq_true, if_false]
      · exfalso
        have hbg : bufGet pre (key.eraseIdx i) ((i : Int) - 1) = key[i - 1] := by
          unfold bufGet
          rw [if_neg (by omega)]
          have htn : ((i : Int) - 1).toNat = i - 1 := by omega
          rw [htn, List.getD_eq_getElem?_getD, List.eraseIdx_eq_take_drop_succ]
          rw [List.getElem?_append, if_pos (by simp; omega), List.getElem?_take,
            if_pos (by omega), List.getElem?_eq_getElem (by omega)]
          rfl
        rw [hbg] at hup
        have hmem : key[i - 1] ∈ key.take i := by
          have hx : (key.take i)[i - 1]? = some key[i - 1] := by
            rw [List.getElem?_take, if_pos (by omega)]
            exact List.getElem?_eq_getElem (by omega)
          exact List.getElem?_mem hx
        have := hinv _ hmem
        rw [this] at hup
        exact Bool.false_ne_true hup
  | case4 pre key i h hb hup ih =>
      intro hinv
      rw [correctKeyLoop]
      simp only [h, dite_true, List.get_eq_getElem] at hb hup ih ⊢
      rw [if_neg (by simp [hb]), if_neg (by simp [hup])]
      have hinv2 : ∀ c ∈ (key.eraseIdx i).take i, isUppercase c = false := by
        rw [take_eraseIdx key i]
        exact hinv
      rw [ih hinv2, take_eraseIdx key i, drop_eraseIdx key i h,
        List.drop_eq_getElem_cons h]
      have hbf : inBounds key[i] = false := by simpa using hb
      simp only [List.filter_cons, hbf, Bool.false_eq_true, if_false]
  | case5 pre key i h =>
      intro hinv
      rw [correctKeyLoop]
      simp only [h, dite_false]
      rw [List.drop_eq_nil_of_le (by omega), List.take_of_length_le (by omega)]
      simp

theorem canonicalKey_getD_inBounds (k : List Int) (hlow : ∀ c ∈ k, isLowercase c = true)
    (j : Nat) (hj : j < k.length) : inBounds (k.getD j 0) = true := by
  have hmem : k.getD j 0 ∈ k := by
    rw [List.getD_eq_getElem?_getD, List.getElem?_eq_getElem hj]
    exact List.getElem_mem hj
  have hl := hlow _ hmem
  rw [inBounds, Bool.or_eq_true]
  left
  exact hl

/-- The spec-modelled inverse pass undoes the ciphering pass character by
character when driven by the same canonical key with the same starting key
cursor. -/
theorem cipherSeq_inv (k : List Int) (hk : CanonicalKey k) :
    ∀ (l : List Int) (keyi : Nat), keyi ≤ k.length →
      cipherSeq calculateRotShiftInv k keyi (cipherSeq calculateRotShift k keyi l) = l := by
  obtain ⟨hne, hlow⟩ := hk
  have hklen : 0 < k.length := List.length_pos.mpr hne
  intro l
  induction l with
  | nil => intro keyi hki; simp [cipherSeq]
  | cons c rest ih =>
      intro keyi hki
      have hki1 : (if keyi = k.length then 0 else keyi) < k.length := by
        split <;> omega
      have hkc : inBounds (k.getD (if keyi = k.length then 0 else keyi) 0) = true :=
        canonicalKey_getD_inBounds k hlow _ hki1
      by_cases hc : inBounds c = true
      · have he1 : inBounds (calculateRotShift c
            (k.getD (if keyi = k.length then 0 else keyi) 0)) = true :=
          inBounds_calculateRotShift c _ hc hkc
        simp only [cipherSeq, hc, if_true, he1]
        rw [calculateRotShiftInv_cancel c _ hc hkc, ih _ (by omega)]
      · simp only [cipherSeq, hc, if_false, Bool.false_eq_true]
        rw [ih _ (by omega)]

theorem getD_eq_getElem_of_lt (p : List Int) (i : Nat) (hi : i < p.length) :
    p.getD i 0 = p[i] := by
  rw [List.getD_eq_getElem?_getD, List.getElem?_eq_getElem hi]
  rfl

/-- C1: for a non-null plaintext and a non-empty canonical key, the key
character consumed at plaintext position `i` is `key[i mod keylen]` — the
cursor advances once per position whether or not that position is a letter. -/
theorem claim1_keystream_by_position (p k : List Int) (hk : CanonicalKey k)
    (i : Nat) (hi : i < p.length) :
    ((vigenere (some p) (some k)).getD [])[i]? =
      some (if inBounds (p.getD i 0) = true
        then calculateRotShift (p.getD i 0) (k.getD (i % k.length) 0)
        else p.getD i 0) := by
  obtain ⟨hne, hlow⟩ := hk
  have hklen : 0 < k.length := List.length_pos.mpr hne
  rw [vigenere_some_eq]
  simp only [Option.getD_some]
  rw [cipherSeq_getElem? calculateRotShift k hklen p 0 (by omega) i,
    List.getElem?_eq_getElem hi, getD_eq_getElem_of_lt p i hi]
  simp only [Nat.zero_add]
  rfl

/-- Witness for C1 at plaintext "A!" and canonical key "b", position 0. -/
theorem claim1_witness :
    CanonicalKey [98] ∧ 0 < ([65, 33] : List Int).length ∧
      ((vigenere (some [65, 33]) (some [98])).getD [])[0]? =
        some (if inBounds (([65, 33] : List Int).getD 0 0) = true
          then calculateRotShift (([65, 33] : List Int).getD 0 0)
            (([98] : List Int).getD (0 % ([98] : List Int).length) 0)
          else ([65, 33] : List Int).getD 0 0) :=
  ⟨by decide, by decide, claim1_keystream_by_position [65, 33] [98] (by decide) 0 (by decide)⟩

/-- C2 counterexample: enciphering "Attack at dawn" with key "lemon" does not
produce "Lxfopv ef rgnkw" (the spec's expected string is not even of the same
length as the plaintext). -/
theorem claim2_counterexample :
    vigenere (some [65, 116, 116, 97, 99, 107, 32, 97, 116, 32, 100, 97, 119, 110])
        (some [108, 101, 109, 111, 110]) ≠
      some [76, 120, 102, 111, 112, 118, 32, 101, 102, 32, 114, 103, 110, 107, 119] := by
  rw [vigenere_some_eq]
  decide

/-- C2 amended: enciphering "Attack at dawn" with key "lemon" produces exactly
"Lxfopv mh oeib" (the key cursor advances on the spaces too), and each output
letter has the case of the corresponding input letter. -/
theorem claim2_amended_output :
    vigenere (some [65, 116, 116, 97, 99, 107, 32, 97, 116, 32, 100, 97, 119, 110])
        (some [108, 101, 109, 111, 110]) =
      some [76, 120, 102, 111, 112, 118, 32, 109, 104, 32, 111, 101, 105, 98] := by
  rw [vigenere_some_eq]
  decide

/-- C3: with a non-null plaintext and a non-empty canonical key the output has
the plaintext's length; a letter position keeps its case and a non-letter
position is passed through unchanged. -/
theorem claim3_shape_invariants (p k : List Int) (hk : CanonicalKey k)
    (i : Nat) (hi : i < p.length) :
    ((vigenere (some p) (some k)).getD []).length = p.length ∧
    (isUppercase (p.getD i 0) = true →
      isUppercase (((vigenere (some p) (some k)).getD []).getD i 0) = true) ∧
    (isLowercase (p.getD i 0) = true →
      isLowercase (((vigenere (some p) (some k)).getD []).getD i 0) = true) ∧
    (inBounds (p.getD i 0) = false →
      ((vigenere (some p) (some k)).getD []).getD i 0 = p.getD i 0) := by
  obtain ⟨hne, hlow⟩ := hk
  have hklen : 0 < k.length := List.length_pos.mpr hne
  rw [vigenere_some_eq]
  simp only [Option.getD_some]
  have hidx : i % k.length < k.length := Nat.mod_lt _ hklen
  have hkc : inBounds (k.getD (i % k.length) 0) = true :=
    canonicalKey_getD_inBounds k hlow _ hidx
  have hilen : i < (cipherSeq calculateRotShift k 0 p).length := by
    rw [cipherSeq_length]
    exact hi
  have hgetD : (cipherSeq calculateRotShift k 0 p).getD i 0 =
      (if inBounds p[i] = true
        then calculateRotShift p[i] (k.getD (i % k.length) 0) else p[i]) := by
    rw [List.getD_eq_getElem?_getD,
      cipherSeq_getElem? calculateRotShift k hklen p 0 (by omega) i,
      List.getElem?_eq_getElem hi]
    simp only [Nat.zero_add]
    rfl
  rw [getD_eq_getElem_of_lt p i hi, hgetD]
  refine ⟨cipherSeq_length _ _ p 0, ?_, ?_, ?_⟩
  · intro hup
    have hcb : inBounds p[i] = true := by
      rw [inBounds, Bool.or_eq_true]
      right
      exact hup
    rw [if_pos hcb]
    exact calculateRotShift_upper _ _ hup hkc
  · intro hlo
    have hcb : inBounds p[i] = true := by
      rw [inBounds, Bool.or_eq_true]
      left
      exact hlo
    rw [if_pos hcb]
    exact calculateRotShift_lower _ _ hlo hkc
  · intro hnb
    rw [if_neg (by simp [hnb])]

/-- Witness for C3 at plaintext "A b" and canonical key "ck", position 1. -/
theorem claim3_witness :
    CanonicalKey [99, 107] ∧ 1 < ([65, 32, 98] : List Int).length ∧
      (((vigenere (some [65, 32, 98]) (some [99, 107])).getD []).length =
        ([65, 32, 98] : List Int).length ∧
      (isUppercase (([65, 32, 98] : List Int).getD 1 0) = true →
        isUppercase (((vigenere (some [65, 32, 98]) (some [99, 107])).getD []).getD 1 0) =
          true) ∧
      (isLowercase (([65, 32, 98] : List Int).getD 1 0) = true →
        isLowercase (((vigenere (some [65, 32, 98]) (some [99, 107])).getD []).getD 1 0) =
          true) ∧
      (inBounds (([65, 32, 98] : List Int).getD 1 0) = false →
        ((vigenere (some [65, 32, 98]) (some [99, 107])).getD []).getD 1 0 =
          ([65, 32, 98] : List Int).getD 1 0)) :=
  ⟨by decide, by decide,
    claim3_shape_invariants [65, 32, 98] [99, 107] (by decide) 1 (by decide)⟩

/-- C4: normalization keeps exactly the Latin letters of the raw key, in their
relative order, folding uppercase letters down by `range_distance` (32); the
result does not depend on the byte stored before the buffer. -/
theorem claim4_normalize_filter_map (pre : Int) (rawKey : List Int) :
    correctKey pre (some rawKey) =
      some ((rawKey.filter (fun c => inBounds c)).map
        (fun c => if isUppercase c then c + range_distance else c)) := by
  simp only [correctKey]
  rw [correctKeyLoop_spec pre rawKey 0 (by simp)]
  simp

/-- C5 counterexample: normalizing "P@ss-w0rd!" does not give "pssword" — the
digit zero in "w0rd" is not a letter and is dropped, not turned into an o. -/
theorem claim5_counterexample :
    correctKey 0 (some [80, 64, 115, 115, 45, 119, 48, 114, 100, 33]) ≠
      some [112, 115, 115, 119, 111, 114, 100] := by
  simp only [correctKey]
  rw [correctKeyLoop_spec 0 _ 0 (by simp)]
  decide

/-- C5 amended: normalizing "P@ss-w0rd!" gives exactly "psswrd". -/
theorem claim5_amended_output :
    correctKey 0 (some [80, 64, 115, 115, 45, 119, 48, 114, 100, 33]) =
      some [112, 115, 115, 119, 114, 100] := by
  simp only [correctKey]
  rw [correctKeyLoop_spec 0 _ 0 (by simp)]
  decide

/-- C6: on two letters the rotation equals
`caseFloor(in) + ((in - caseFloor in) + (key - caseFloor key)) mod 26` with a
true non-negative modulo, so the result stays in the 26-letter case range of
the input character. -/
theorem claim6_rotation_formula (inC keyChar : Int) (hc : inBounds inC = true)
    (hk : inBounds keyChar = true) :
    calculateRotShift inC keyChar =
      getFloor inC + ((inC - getFloor inC) + (keyChar - getFloor keyChar)) % 26 ∧
    0 ≤ ((inC - getFloor inC) + (keyChar - getFloor keyChar)) % 26 ∧
    ((inC - getFloor inC) + (keyChar - getFloor keyChar)) % 26 < 26 ∧
    getFloor inC ≤ calculateRotShift inC keyChar ∧
    calculateRotShift inC keyChar < getFloor inC + 26 := by
  have h1 := calculateRotShift_eq inC keyChar hc hk
  have h2 := calculateRotShift_mem inC keyChar hc hk
  exact ⟨h1, by omega, by omega, h2.1, h2.2⟩

/-- Witness for C6 at the letters A and a. -/
theorem claim6_witness :
    inBounds 65 = true ∧ inBounds 97 = true ∧
      (calculateRotShift 65 97 =
        getFloor 65 + ((65 - getFloor 65) + (97 - getFloor 97)) % 26 ∧
      0 ≤ ((65 - getFloor 65) + (97 - getFloor 97)) % 26 ∧
      ((65 - getFloor 65) + (97 - getFloor 97)) % 26 < 26 ∧
      getFloor 65 ≤ calculateRotShift 65 97 ∧
      calculateRotShift 65 97 < getFloor 65 + 26) :=
  ⟨by decide, by decide, claim6_rotation_formula 65 97 (by decide) (by decide)⟩

/-- C7: enciphering with a non-empty canonical key and then running the
spec's inverse pass (same position cycling, negated rotation) with the same
key reproduces the plaintext exactly. -/
theorem claim7_encipher_decipher (p k : List Int) (hk : CanonicalKey k) :
    devigenere (vigenere (some p) (some k)) (some k) = some p := by
  rw [vigenere_some_eq, devigenere_some_eq, cipherSeq_inv k hk p 0 (Nat.zero_le _)]

/-- Witness for C7 at plaintext "Hi!" and canonical key "ab". -/
theorem claim7_witness :
    CanonicalKey [97, 98] ∧
      devigenere (vigenere (some [72, 105, 33]) (some [97, 98])) (some [97, 98]) =
        some [72, 105, 33] :=
  ⟨by decide, claim7_encipher_decipher [72, 105, 33] [97, 98] (by decide)⟩

/-- C8: with the empty key the wrap test `keyi == keylen` fires only while
`keyi` is 0, i.e. only at position 0, so at every later letter position the
loop reads `key[i]` — past the empty key's allocation, whose only cell is
`key[0]`, the NUL terminator.  On the plaintext " b" the key index read at
position 1 is 1, which exceeds the empty key's length, so the pass is not
crash-free: it dereferences unallocated memory. -/
theorem claim8_out_of_bounds_key_read :
    (1 : Nat) ∈ cipherKeyReadIdx [] [32, 98] 0 0 ∧ ([] : List Int).length < 1 := by
  have heval : cipherKeyReadIdx [] [32, 98] 0 0 = [1] := by
    rw [cipherKeyReadIdx]
    norm_num [inBounds, isUppercase, isLowercase, uppercase_lower, uppercase_upper,
      lowercase_lower, lowercase_upper]
    rw [cipherKeyReadIdx]
    norm_num [inBounds, isUppercase, isLowercase, uppercase_lower, uppercase_upper,
      lowercase_lower, lowercase_upper]
    rw [cipherKeyReadIdx]
    norm_num [List.length_set]
  rw [heval]
  exact ⟨by decide, by decide⟩

/-- C9: `correctKey` fails (NULL) exactly on a NULL raw key, and `vigenere`
fails (NULL) exactly when the plaintext or the key is NULL; in every other
case each returns a non-NULL result. -/
theorem claim9_null_failures :
    (∀ (pre : Int) (rawKey : Option (List Int)),
      correctKey pre rawKey = none ↔ rawKey = none) ∧
    (∀ (plainText key : Option (List Int)),
      vigenere plainText key = none ↔ (plainText = none ∨ key = none)) := by
  constructor
  · intro pre rawKey
    cases rawKey <;> simp [correctKey]
  · intro plainText key
    cases plainText <;> cases key <;> simp [vigenere]

/-- C10: on the raw key "@a" the scan loop of `correctKey` performs its
uppercase fold check at buffer index -1: dropping the non-letter at position 0
decrements the index to -1 and `isUppercase(key[-1])` reads the byte before
the allocation. -/
theorem claim10_negative_index_read :
    (-1 : Int) ∈ correctKeyCheckIdx 0 [64, 97] 0 := by
  have heval : correctKeyCheckIdx 0 [64, 97] 0 = [-1, 0] := by
    rw [correctKeyCheckIdx]
    norm_num [bufGet, bufSet, inBounds, isUppercase, isLowercase, uppercase_lower,
      uppercase_upper, lowercase_lower, lowercase_upper, range_distance]
    rw [correctKeyCheckIdx]
    norm_num [bufGet, bufSet, inBounds, isUppercase, isLowercase, uppercase_lower,
      uppercase_upper, lowercase_lower, lowercase_upper, range_distance]
    rw [correctKeyCheckIdx]
    norm_num
  rw [heval]
  decide

end VigenereC
